import Mathlib

/-!
# Verification of the seqan3 bounded-sequence views

Shallow embedding of `include/seqan3/range/view/take.hpp` (the count-bounded
view `view_take`, its iterator/sentinel protocol and the adaptor `take_fn`)
and `include/seqan3/range/views/take_until.hpp` (the predicate-bounded view
`view_take_until` with its non-consuming `basic_iterator`/`basic_sentinel`
pair and its consuming `basic_consume_iterator`).

Sequences are modelled as `List α`; an iterator position into a sequence is
the suffix (`rest`) of elements not yet consumed.  `size_t` values are `Nat`;
the one place where a `size_t` is decremented and could wrap
(`--host_ptr->target_size`) is modelled by `decWrap`, proven equal to the
explicit `(x + (2^64 - 1)) % 2^64` machine arithmetic on every representable
value (`decWrap_eq_mod`).  Positions
(`pos`, `max_pos`) are only ever incremented while `pos < max_pos < 2^64`
holds during any traversal that starts at `begin()`, so plain `Nat`
increments coincide with the `size_t` arithmetic of the source there.
Functions that can `throw` return `Except Err _`.
-/

namespace SeqanViews

variable {α : Type}

/-- The two exception kinds of the error-handling design:
`invalidBound` is `std::invalid_argument` thrown by `take_fn::operator()` and
by the `view_take` constructor; `unexpectedEndOfInput` is
`seqan3::unexpected_end_of_input`. -/
inductive Err where
  | invalidBound
  | unexpectedEndOfInput
deriving DecidableEq, Repr

/-- `2^64`, the modulus of `size_t` arithmetic. -/
def SIZE_T_MOD : Nat := 2 ^ 64

/-- One `size_t` decrement (`--x`), with wrap-around at zero.  For every
representable value this equals `(x + (SIZE_T_MOD - 1)) % SIZE_T_MOD`, the
`% 2^64` form of the machine subtraction (`decWrap_eq_mod` below); the
case-split form is used as the definition because Lean's kernel cannot
feasibly normalise `Nat.mod` applied to a symbolic argument and a `2^64`
literal. -/
def decWrap (x : Nat) : Nat := if x = 0 then SIZE_T_MOD - 1 else x - 1

/-!
## Count-bounded view (`view_take`, take.hpp)
-/

/-- State of a `view_take` iterator, together with the `target_size` member of
the owning view (which the iterator reaches through `host_ptr` in the
`exactly && !ForwardIterator` configuration).

* `hostTarget` — the view's `target_size` member;
* `rest`       — the underlying iterator: the suffix of the underlying
                 sequence not yet passed over (`[]` means the underlying
                 iterator equals the underlying sentinel);
* `pos`        — the iterator's `pos` member (current position);
* `maxPos`     — the iterator's `max_pos` member (the size parameter). -/
structure TakeState (α : Type) where
  hostTarget : Nat
  rest : List α
  pos : Nat
  maxPos : Nat
deriving DecidableEq, Repr

/-- `view_take::iterator_type::operator++` (take.hpp lines 135-142):
advance the underlying iterator (drop the head of `rest`), increment `pos`,
and — only when `exactly && !std::ForwardIterator<base_base_t>` (here:
`exactly && !multipass`) — decrement the host view's `target_size`. -/
def takeStep (exactly multipass : Bool) (s : TakeState α) : TakeState α :=
  { hostTarget := if exactly && !multipass then decWrap s.hostTarget else s.hostTarget
    rest := s.rest.tail
    pos := s.pos + 1
    maxPos := s.maxPos }

/-- `view_take::iterator_type::operator==(sentinel_type)` (take.hpp lines
215-232): equal to the sentinel when `pos >= max_pos`; otherwise, if the
underlying iterator has reached the underlying sentinel, throw
`unexpected_end_of_input` when `or_throw` is set and report equality when it
is not; otherwise not equal. -/
def takeEqEnd (orThrow : Bool) (s : TakeState α) : Except Err Bool :=
  if s.maxPos ≤ s.pos then
    .ok true
  else if s.rest.isEmpty then
    (if orThrow then .error .unexpectedEndOfInput else .ok true)
  else
    .ok false

/-- Full traversal of a `view_take` from iterator state
`⟨host, rest, pos, maxPos⟩`: repeatedly compare against the sentinel with
`takeEqEnd`; while unequal, yield the element under the iterator (`*it`, the
head of `rest`) and advance with `takeStep`.  Returns the yielded elements
and the error, if the sentinel comparison threw.  The recursive call is on
the tail of `rest`, which is exactly `(takeStep … ).rest`. -/
def takeRun (exactly multipass orThrow : Bool) :
    List α → Nat → Nat → Nat → List α × Option Err
  | rest, host, pos, maxPos =>
    match takeEqEnd orThrow ⟨host, rest, pos, maxPos⟩ with
    | .error e => ([], some e)
    | .ok true => ([], none)
    | .ok false =>
      match rest with
      | [] => ([], none)
      | x :: xs =>
        let st := takeStep exactly multipass ⟨host, x :: xs, pos, maxPos⟩
        let r := takeRun exactly multipass orThrow xs st.hostTarget st.pos st.maxPos
        (x :: r.1, r.2)

/-- `view_take::begin()` (take.hpp line 367): iterator at the start of the
underlying range with `pos = 0` and `max_pos = target_size`, host pointer to
the view (whose `target_size` is `n`). -/
def viewTakeInit (s : List α) (n : Nat) : TakeState α := ⟨n, s, 0, n⟩

/-- Observable behaviour of a fully-traversed `view_take` built directly on
sequence `s` with size parameter `n`. -/
def viewTakeElems (exactly multipass orThrow : Bool) (s : List α) (n : Nat) :
    List α × Option Err :=
  takeRun exactly multipass orThrow s n 0 n

/-- `view_take::size() const requires exactly` (take.hpp lines 431-435):
returns the view's `target_size` member unconditionally. -/
def viewTakeSizeExact (st : TakeState α) : Nat := st.hostTarget

/-- The throwing check of the `view_take` constructor (take.hpp lines
321-332): when `exactly && or_throw && std::ranges::SizedRange<urng_t>`, a
sized underlying range strictly smaller than the size parameter raises
`std::invalid_argument`. -/
def viewTakeCtor (exactly orThrow sized : Bool) (s : List α) (target : Nat) :
    Except Err Unit :=
  if exactly && orThrow && sized then
    (if s.length < target then .error .invalidBound else .ok ())
  else
    .ok ()

/-!
## The adaptor `take_fn::operator()` (take.hpp lines 478-540)
-/

/-- Capability classification of the underlying range, mirroring the
compile-time trait tests of `take_fn::operator()`:
`isStringView` — `std::basic_string_view` specialisation;
`isConstString` — `std::basic_string` that is `const`-qualified;
`forwarding` — `ForwardingRange` ("referenceable");
`contiguous` — `std::ranges::ContiguousRange`;
`randomAccess` — `std::ranges::RandomAccessRange`;
`sized` — `std::ranges::SizedRange`;
`multipass` — `std::ForwardIterator<base_base_t>` (not single-pass). -/
structure RangeCaps where
  isStringView : Bool
  isConstString : Bool
  forwarding : Bool
  contiguous : Bool
  randomAccess : Bool
  sized : Bool
  multipass : Bool
deriving DecidableEq, Repr

/-- The "safeguard against wrong size" block of `take_fn::operator()`
(take.hpp lines 484-499): on a sized range, `or_throw` raises
`std::invalid_argument` when `target_size > size(urange)`, and silent mode
clamps `target_size` to `min(target_size, size(urange))`. -/
def takeFnCheckTarget (caps : RangeCaps) (orThrow : Bool) (s : List α) (n : Nat) :
    Except Err Nat :=
  if caps.sized then
    (if orThrow then
      (if s.length < n then .error .invalidBound else .ok n)
     else
      .ok (min n s.length))
  else
    .ok n

/-- Element sequence observed from the value returned by
`take_fn::operator()` (take.hpp lines 478-540), fully traversed.

Outer `Except` = construction-time failure (the safeguard block or the
`view_take` constructor); the inner `Option Err` = failure during later
traversal of the constructed view.  The four concrete representations
(`substr(0, target)`, `basic_string_view{data, target}`,
`span{data, target}`, `subrange{begin, begin + target, target}`) all expose
the first `target` elements of the underlying sequence; the fallback
constructs `view_take` and traverses it. -/
def takeFnElems (caps : RangeCaps) (exactly orThrow : Bool) (s : List α) (n : Nat) :
    Except Err (List α × Option Err) :=
  match takeFnCheckTarget caps orThrow s n with
  | .error e => .error e
  | .ok target =>
    if caps.isStringView then .ok (s.take target, none)
    else if caps.isConstString then .ok (s.take target, none)
    else if caps.forwarding && caps.contiguous && caps.sized then
      .ok (s.take target, none)
    else if caps.forwarding && caps.randomAccess && caps.sized then
      .ok (s.take target, none)
    else
      match viewTakeCtor exactly orThrow caps.sized s target with
      | .error e => .error e
      | .ok _ => .ok (takeRun exactly caps.multipass orThrow s target 0 target)

/-- Size reported by the value returned by `take_fn::operator()` (`none` when
the representation reports no size: the general `view_take` with
`!exactly` on an unsized range).  `substr` clamps at the string's length; the
other concrete representations are tagged with `target` itself; the general
`view_take` reports `target_size` when `exactly` and
`min(target_size, size(urange))` when sized (take.hpp lines 431-449). -/
def takeFnSize (caps : RangeCaps) (exactly orThrow : Bool) (s : List α) (n : Nat) :
    Except Err (Option Nat) :=
  match takeFnCheckTarget caps orThrow s n with
  | .error e => .error e
  | .ok target =>
    if caps.isStringView then .ok (some (min target s.length))
    else if caps.isConstString then .ok (some target)
    else if caps.forwarding && caps.contiguous && caps.sized then
      .ok (some target)
    else if caps.forwarding && caps.randomAccess && caps.sized then
      .ok (some target)
    else
      match viewTakeCtor exactly orThrow caps.sized s target with
      | .error e => .error e
      | .ok _ =>
        .ok (if exactly then some target
             else if caps.sized then some (min target s.length) else none)

/-!
## Predicate-bounded view, non-consuming mode (`basic_iterator` /
`basic_sentinel`, take_until.hpp)
-/

/-- `operator==(basic_iterator, basic_sentinel)` (take_until.hpp lines
457-471): if the underlying iterator equals the underlying sentinel
(`rest = []`), throw `unexpected_end_of_input` under `or_throw` and report
equality otherwise; else the result is the predicate applied to the element
under the iterator. -/
def tuSentinelEq (orThrow : Bool) (p : α → Bool) (rest : List α) : Except Err Bool :=
  match rest with
  | [] => if orThrow then .error .unexpectedEndOfInput else .ok true
  | x :: _ => .ok (p x)

/-- `operator==(basic_iterator, basic_sentinel)` together with the iterator
position after the comparison.  The source takes the iterator by `const`
reference and never advances it, so the returned position is the argument
position; packaging it makes non-advancement a provable statement. -/
def tuSentinelEqSt (orThrow : Bool) (p : α → Bool) (rest : List α) :
    Except Err Bool × List α :=
  (tuSentinelEq orThrow p rest, rest)

/-- `m` successive sentinel comparisons of the same (un-advanced)
non-consuming iterator, each starting from the position the previous
comparison left behind: the list of results and the final position. -/
def tuCompareN (orThrow : Bool) (p : α → Bool) : Nat → List α → List (Except Err Bool) × List α
  | 0, rest => ([], rest)
  | k + 1, rest =>
    let r := tuSentinelEqSt orThrow p rest
    let rs := tuCompareN orThrow p k r.2
    (r.1 :: rs.1, rs.2)

/-- Full traversal of a non-consuming `view_take_until` from underlying
position `rest`: compare with `tuSentinelEq`; while unequal, yield the
element under the iterator and advance the underlying iterator by one
(`basic_iterator` inherits `operator++` unchanged from the underlying
iterator). -/
def tuRun (orThrow : Bool) (p : α → Bool) : List α → List α × Option Err
  | [] =>
    (match tuSentinelEq orThrow p ([] : List α) with
     | .error e => ([], some e)
     | .ok _ => ([], none))
  | x :: xs =>
    match tuSentinelEq orThrow p (x :: xs) with
    | .error e => ([], some e)
    | .ok true => ([], none)
    | .ok false =>
      let r := tuRun orThrow p xs
      (x :: r.1, r.2)

/-!
## Predicate-bounded view, consuming mode (`basic_consume_iterator`,
take_until.hpp)
-/

/-- State of a `basic_consume_iterator`: the underlying iterator (`rest`,
with `[]` = the stored underlying sentinel reached) and the
`at_end_gracefully` flag. -/
structure ConsumeIter (α : Type) where
  rest : List α
  atEndGracefully : Bool
deriving DecidableEq, Repr

/-- The `while ((this->base() != stored_end) && fun(**this))` loop shared by
the constructor and `operator++` (take_until.hpp lines 338-343): consume
elements while the predicate holds, setting `at_end_gracefully` each time the
body runs.  Returns the final underlying position and flag. -/
def consumeWhile (p : α → Bool) : List α → Bool → List α × Bool
  | [], g => ([], g)
  | x :: xs, g => if p x then consumeWhile p xs true else (x :: xs, g)

/-- `basic_consume_iterator::operator++` (take_until.hpp lines 331-345):
advance the underlying iterator once, then run the consuming loop. -/
def consumeSucc (p : α → Bool) (it : ConsumeIter α) : ConsumeIter α :=
  let r := consumeWhile p it.rest.tail it.atEndGracefully
  ⟨r.1, r.2⟩

/-- `basic_consume_iterator` constructor (take_until.hpp lines 302-312):
start at the beginning of the underlying range; if not at end and the
predicate holds on the first element, set `at_end_gracefully` and run
`operator++`. -/
def consumeInit (p : α → Bool) (s : List α) : ConsumeIter α :=
  match s with
  | [] => ⟨[], false⟩
  | x :: xs => if p x then consumeSucc p ⟨x :: xs, true⟩ else ⟨x :: xs, false⟩

/-- `basic_consume_iterator::operator==(sentinel_type)` (take_until.hpp lines
362-379): true when `at_end_gracefully`; otherwise, at the physical end,
throw under `or_throw` and report equality otherwise; otherwise evaluate the
predicate on the element under the iterator. -/
def consumeEq (orThrow : Bool) (p : α → Bool) (it : ConsumeIter α) : Except Err Bool :=
  if it.atEndGracefully then .ok true
  else
    match it.rest with
    | [] => if orThrow then .error .unexpectedEndOfInput else .ok true
    | x :: _ => .ok (p x)

/-- Length of the consuming loop's result never exceeds the input length
(used only for termination of `consumeRun`). -/
theorem consumeWhile_length_le (p : α → Bool) :
    ∀ (l : List α) (g : Bool), (consumeWhile p l g).1.length ≤ l.length := by
  intro l
  induction l with
  | nil => intro g; simp [consumeWhile]
  | cons x xs ih =>
    intro g
    by_cases h : p x = true
    · simpa [consumeWhile, h] using Nat.le_succ_of_le (ih true)
    · simp [consumeWhile, h]

/-- Full traversal of a consuming `view_take_until`: compare with
`consumeEq`; while unequal, yield the element under the iterator and advance
with `consumeSucc`.  Returns the yielded elements, the error (if the
comparison threw), and the final iterator state — whose `rest` is the
remaining position of the underlying single-pass sequence. -/
def consumeRun (orThrow : Bool) (p : α → Bool) (it : ConsumeIter α) :
    List α × Option Err × ConsumeIter α :=
  match consumeEq orThrow p it with
  | .error e => ([], some e, it)
  | .ok true => ([], none, it)
  | .ok false =>
    match h : it.rest with
    | [] => ([], none, it)
    | x :: _ =>
      let r := consumeRun orThrow p (consumeSucc p it)
      (x :: r.1, r.2.1, r.2.2)
termination_by it.rest.length
decreasing_by
  simp only [consumeSucc]
  calc (consumeWhile p it.rest.tail it.atEndGracefully).1.length
      ≤ it.rest.tail.length := consumeWhile_length_le p _ _
    _ < it.rest.length := by simp [h]

/-!
## Helper lemmas
-/

/-- `decWrap` agrees with the modular (`% 2^64`) form of the `size_t`
decrement on every representable value. -/
theorem decWrap_eq_mod (x : Nat) (h : x < SIZE_T_MOD) :
    decWrap x = (x + (SIZE_T_MOD - 1)) % SIZE_T_MOD := by
  have hpos : 0 < SIZE_T_MOD := by norm_num [SIZE_T_MOD]
  rcases Nat.eq_zero_or_pos x with h0 | h0
  · subst h0
    rw [decWrap, if_pos rfl, Nat.zero_add, Nat.mod_eq_of_lt (by omega)]
  · have h3 : x + (SIZE_T_MOD - 1) = (x - 1) + SIZE_T_MOD := by omega
    rw [decWrap, if_neg (by omega), h3, Nat.add_mod_right, Nat.mod_eq_of_lt (by omega)]

/-- One `size_t` decrement of a positive value is ordinary subtraction. -/
theorem decWrap_pred (x : Nat) (h1 : 1 ≤ x) : decWrap x = x - 1 := by
  rw [decWrap, if_neg (by omega)]

/-- Without `or_throw`, a full `view_take` traversal yields the next
`max_pos - pos` elements of the underlying sequence (or all of them if fewer
remain) and no error. -/
theorem takeRun_no_throw (exactly multipass : Bool) :
    ∀ (s : List α) (host pos maxPos : Nat),
      takeRun exactly multipass false s host pos maxPos = (s.take (maxPos - pos), none) := by
  intro s
  induction s with
  | nil =>
    intro host pos maxPos
    by_cases h : maxPos ≤ pos <;> simp [takeRun, takeEqEnd, h]
  | cons x xs ih =>
    intro host pos maxPos
    by_cases h : maxPos ≤ pos
    · simp [takeRun, takeEqEnd, h, Nat.sub_eq_zero_of_le h]
    · have h1 : maxPos - pos = (maxPos - (pos + 1)) + 1 := by omega
      rw [h1]
      simp [takeRun, takeEqEnd, h, takeStep, ih]

/-- With `or_throw`, a `view_take` traversal over a sequence shorter than the
remaining target yields all its elements and then throws
`unexpected_end_of_input` at the sentinel comparison that reaches the true
end. -/
theorem takeRun_underflow (exactly multipass : Bool) :
    ∀ (s : List α) (host pos maxPos : Nat), s.length < maxPos - pos →
      takeRun exactly multipass true s host pos maxPos = (s, some .unexpectedEndOfInput) := by
  intro s
  induction s with
  | nil =>
    intro host pos maxPos h
    have h2 : ¬ maxPos ≤ pos := by simp at h; omega
    simp [takeRun, takeEqEnd, h2]
  | cons x xs ih =>
    intro host pos maxPos h
    have h2 : ¬ maxPos ≤ pos := by simp at h; omega
    have h3 : xs.length < maxPos - (pos + 1) := by simp at h; omega
    simp [takeRun, takeEqEnd, h2, takeStep, ih _ _ _ h3]

/-- Taking a clamped count takes the same prefix. -/
theorem take_min_self (s : List α) (n : Nat) : s.take (min n s.length) = s.take n := by
  rcases Nat.le_total n s.length with h | h
  · rw [Nat.min_eq_left h]
  · rw [Nat.min_eq_right h, List.take_length, List.take_of_length_le h]

/-- Without `or_throw`, `take_fn::operator()` never fails and every selected
representation exposes exactly the first `n` elements with no traversal
error. -/
theorem takeFnElems_no_throw (caps : RangeCaps) (exactly : Bool) (s : List α) (n : Nat) :
    takeFnElems caps exactly false s n = .ok (s.take n, none) := by
  have hg : ∀ target : Nat, takeRun exactly caps.multipass false s target 0 target
      = (s.take target, none) := by
    intro t
    simpa using takeRun_no_throw exactly caps.multipass s t 0 t
  by_cases hs : caps.sized <;>
    simp [takeFnElems, takeFnCheckTarget, viewTakeCtor, hs, hg, take_min_self]

/-- No element of the list satisfies the predicate, so the consuming loop
falls through immediately. -/
theorem consumeWhile_no_match (p : α → Bool) (l : List α) (g : Bool)
    (h : ∀ x ∈ l, p x = false) : consumeWhile p l g = (l, g) := by
  cases l with
  | nil => rfl
  | cons x xs => simp [consumeWhile, h x (by simp)]

/-- The head of a consuming-loop result never satisfies the predicate. -/
theorem consumeWhile_head_false (p : α → Bool) :
    ∀ (l : List α) (g : Bool) (x : α) (xs : List α),
      (consumeWhile p l g).1 = x :: xs → p x = false := by
  intro l
  induction l with
  | nil => intro g x xs h; simp [consumeWhile] at h
  | cons y ys ih =>
    intro g x xs h
    by_cases hy : p y = true
    · exact ih true x xs (by simpa [consumeWhile, hy] using h)
    · have hyx : y = x := by
        simp [consumeWhile, hy] at h
        exact h.1
      rw [← hyx]
      simpa using hy

/-- Unfolding `consumeRun` when the sentinel comparison throws. -/
theorem consumeRun_of_error {orThrow : Bool} {p : α → Bool} {it : ConsumeIter α} {e : Err}
    (h : consumeEq orThrow p it = .error e) :
    consumeRun orThrow p it = ([], some e, it) := by
  rw [consumeRun.eq_def, h]

/-- Unfolding `consumeRun` when the sentinel comparison reports equality. -/
theorem consumeRun_of_true {orThrow : Bool} {p : α → Bool} {it : ConsumeIter α}
    (h : consumeEq orThrow p it = .ok true) :
    consumeRun orThrow p it = ([], none, it) := by
  rw [consumeRun.eq_def, h]

/-- Unfolding `consumeRun` when the sentinel comparison reports inequality:
yield the element under the iterator and continue from the advanced
iterator. -/
theorem consumeRun_of_false {orThrow : Bool} {p : α → Bool} {it : ConsumeIter α}
    {x : α} {xs : List α}
    (h : consumeEq orThrow p it = .ok false) (h2 : it.rest = x :: xs) :
    consumeRun orThrow p it =
      (x :: (consumeRun orThrow p (consumeSucc p it)).1,
       (consumeRun orThrow p (consumeSucc p it)).2.1,
       (consumeRun orThrow p (consumeSucc p it)).2.2) := by
  rw [consumeRun.eq_def, h]
  split
  · simp_all
  · simp_all
  · split <;> simp_all

/-- A non-consuming `or_throw` traversal over a sequence with no matching
element yields every element and then throws at the final sentinel
comparison. -/
theorem tuRun_no_match (p : α → Bool) :
    ∀ (s : List α), (∀ x ∈ s, p x = false) →
      tuRun true p s = (s, some .unexpectedEndOfInput) := by
  intro s
  induction s with
  | nil => intro _; simp [tuRun, tuSentinelEq]
  | cons x xs ih =>
    intro h
    simp [tuRun, tuSentinelEq, h x (by simp), ih (fun y hy => h y (by simp [hy]))]

/-- When no element matches, the consuming iterator's constructor leaves the
underlying position at the start with the flag unset. -/
theorem consumeInit_no_match (p : α → Bool) (s : List α)
    (h : ∀ x ∈ s, p x = false) : consumeInit p s = ⟨s, false⟩ := by
  cases s with
  | nil => rfl
  | cons x xs => simp [consumeInit, h x (by simp)]

/-- A consuming `or_throw` traversal from an un-ended iterator over a
sequence with no matching element yields every element and then throws at
the sentinel comparison that reaches the physical end. -/
theorem consumeRun_no_match (p : α → Bool) :
    ∀ (s : List α), (∀ x ∈ s, p x = false) →
      consumeRun true p ⟨s, false⟩
        = (s, some .unexpectedEndOfInput, (⟨[], false⟩ : ConsumeIter α)) := by
  intro s
  induction s with
  | nil =>
    intro _
    exact consumeRun_of_error (by simp [consumeEq])
  | cons x xs ih =>
    intro h
    have hx : p x = false := h x (by simp)
    have hxs : ∀ y ∈ xs, p y = false := fun y hy => h y (by simp [hy])
    have hsucc : consumeSucc p ⟨x :: xs, false⟩ = (⟨xs, false⟩ : ConsumeIter α) := by
      simp [consumeSucc, consumeWhile_no_match p xs false hxs]
    rw [consumeRun_of_false (by simp [consumeEq, hx]) rfl, hsucc, ih hxs]

/-- Invariant of the consuming iterator: directly after construction and
directly after any number of advances, if the iterator is not gracefully
ended and not at the physical end, the element under it does not satisfy the
predicate. -/
theorem consumeIter_head_false (p : α → Bool) (s : List α) :
    ∀ (k : Nat) (x : α) (xs : List α),
      (((consumeSucc p)^[k]) (consumeInit p s)).atEndGracefully = false →
      (((consumeSucc p)^[k]) (consumeInit p s)).rest = x :: xs → p x = false := by
  intro k
  cases k with
  | zero =>
    intro x xs hg h
    simp only [Function.iterate_zero, id] at hg h
    cases s with
    | nil => simp [consumeInit] at h
    | cons y ys =>
      by_cases hy : p y = true
      · exact consumeWhile_head_false p _ _ x xs (by simpa [consumeInit, hy] using h)
      · have hyx : y = x := by
          simp [consumeInit, hy] at h
          exact h.1
        rw [← hyx]
        simpa using hy
  | succ m =>
    intro x xs _ h
    rw [Function.iterate_succ_apply'] at h
    exact consumeWhile_head_false p _ _ x xs h

/-!
## Claim theorems
-/

/-- Claim C1: for every sequence `s` and count `n`, the non-throwing take
adaptor (`exactly = false`, `or_throw = false`), whatever representation it
selects, yields exactly `min(length(s), n)` elements, in the original order
of `s`, each identical to `s`'s corresponding element; in particular
`take(s, 0)` yields an empty sequence. -/
theorem c1_take_yields_min_prefix (caps : RangeCaps) (s : List α) (n : Nat) :
    takeFnElems caps false false s n = .ok (s.take n, none)
    ∧ (s.take n).length = min s.length n
    ∧ (∀ i, i < n → (s.take n)[i]? = s[i]?)
    ∧ takeFnElems caps false false s 0 = .ok ([], none) := by
  refine ⟨takeFnElems_no_throw caps false s n, ?_, ?_, ?_⟩
  · simp [List.length_take, Nat.min_comm]
  · intro i hi
    simp [List.getElem?_take, hi]
  · simpa using takeFnElems_no_throw caps false s 0

/-- Witness for C1 at a concrete input. -/
theorem c1_witness :
    takeFnElems (⟨false, false, false, false, false, false, false⟩ : RangeCaps) false false
        [10, 20, 30] 2 = .ok ([10, 20], none)
    ∧ ([10, 20, 30] : List Nat).take 2 = [10, 20]
    ∧ (([10, 20, 30] : List Nat).take 2)[1]? = ([10, 20, 30] : List Nat)[1]? := by
  have h := c1_take_yields_min_prefix
    (⟨false, false, false, false, false, false, false⟩ : RangeCaps) ([10, 20, 30] : List Nat) 2
  exact ⟨h.1, rfl, h.2.2.1 1 (by decide)⟩

/-- Claim C2: the non-throwing, non-consuming `take_until(s, p)` yields every
element of `s` up to but excluding the first one satisfying `p`, or the
entire sequence if `p` never holds — i.e. exactly the longest prefix on
which `p` is false. -/
theorem c2_take_until_prefix (p : α → Bool) (s : List α) :
    tuRun false p s = (s.takeWhile (fun x => !p x), none) := by
  induction s with
  | nil => simp [tuRun, tuSentinelEq]
  | cons x xs ih =>
    cases hx : p x <;> simp [tuRun, tuSentinelEq, hx, ih, List.takeWhile_cons]

/-- Claim C3: in consuming mode on a single-pass sequence `[a, b, c, d]` with
`p(b) = p(c) = true` and `p` false elsewhere, `take_until(s, p,
and_consume = true)` yields exactly `[a]`, and after full traversal the
underlying sequence's remaining position starts exactly at `d` and the
iterator is gracefully ended. -/
theorem c3_consume_mode_correct (a b c d : α) (p : α → Bool)
    (ha : p a = false) (hb : p b = true) (hc : p c = true) (hd : p d = false) :
    consumeRun false p (consumeInit p [a, b, c, d])
      = ([a], none, (⟨[d], true⟩ : ConsumeIter α)) := by
  have h1 : consumeInit p [a, b, c, d] = ⟨[a, b, c, d], false⟩ := by
    simp [consumeInit, ha]
  have h2 : consumeSucc p ⟨[a, b, c, d], false⟩ = (⟨[d], true⟩ : ConsumeIter α) := by
    simp [consumeSucc, consumeWhile, hb, hc, hd]
  rw [h1, consumeRun_of_false (by simp [consumeEq, ha]) rfl, h2,
      consumeRun_of_true (by simp [consumeEq])]

/-- Witness for C3 at a concrete input. -/
theorem c3_witness :
    consumeRun false (fun x : Nat => x == 2) (consumeInit (fun x : Nat => x == 2) [1, 2, 2, 3])
      = ([1], none, (⟨[3], true⟩ : ConsumeIter Nat)) :=
  c3_consume_mode_correct 1 2 2 3 (fun x : Nat => x == 2) rfl rfl rfl rfl

/-- Counterexample to C4 as stated: the claim's "`InvalidBound` is raised
only in this count-bounded **exact-mode** case" is false — the adaptor's
safeguard (take.hpp lines 485-494) tests only `or_throw`, so with
`exactly = false`, `or_throw = true` and a sized source of length 1, a
requested count of 2 raises `InvalidBound` at construction as well. -/
theorem c4_counterexample :
    takeFnElems (⟨false, false, false, false, false, true, false⟩ : RangeCaps)
      false true [(0 : Nat)] 2 = .error .invalidBound := rfl

/-- Claim C4 (amended): for a sized source with `n > length(s)` and
`exactly = true, or_throw = true`, construction raises `InvalidBound`;
and `InvalidBound` is raised precisely when `or_throw` is set and the source
is sized with fewer than `n` elements — regardless of `exactly`. -/
theorem c4_invalid_bound_iff (caps : RangeCaps) (exactly orThrow : Bool)
    (s : List α) (n : Nat) :
    takeFnElems caps exactly orThrow s n = .error .invalidBound
      ↔ (caps.sized = true ∧ orThrow = true ∧ s.length < n) := by
  obtain ⟨sv, cs, fw, co, ra, sz, mp⟩ := caps
  by_cases hl : s.length < n
  all_goals
    cases sz <;> cases orThrow <;> cases exactly <;>
      simp [takeFnElems, takeFnCheckTarget, viewTakeCtor, hl] <;>
      split_ifs <;>
      simp_all

/-- Claim C5: the count-bounded cursor equals the terminal marker when the
offset reaches `n` or the underlying cursor reaches the underlying terminal
marker; only underlying exhaustion before the offset reaches `n` makes
`or_throw` raise `UnexpectedEndOfInput`; and a single-pass traversal with
`n > length(s)`, `exactly = false`, `or_throw = true` yields all `length(s)`
elements and then raises `UnexpectedEndOfInput` at the comparison reaching
the true end. -/
theorem c5_sentinel_and_underflow (st : TakeState α) (s : List α) (n : Nat) :
    (takeEqEnd false st = .ok true ↔ (st.maxPos ≤ st.pos ∨ st.rest = []))
    ∧ (st.pos < st.maxPos → st.rest = [] →
        takeEqEnd true st = .error .unexpectedEndOfInput)
    ∧ (st.maxPos ≤ st.pos → takeEqEnd true st = .ok true)
    ∧ (s.length < n → viewTakeElems false false true s n = (s, some .unexpectedEndOfInput)) := by
  refine ⟨?_, ?_, ?_, ?_⟩
  · by_cases h : st.maxPos ≤ st.pos
    · simp [takeEqEnd, h]
    · cases hr : st.rest <;> simp [takeEqEnd, h, hr]
  · intro h1 h2
    have h3 : ¬ st.maxPos ≤ st.pos := by omega
    simp [takeEqEnd, h2, h3]
  · intro h
    simp [takeEqEnd, h]
  · intro h
    have h4 := takeRun_underflow false false s n 0 n (by simpa using h)
    simpa [viewTakeElems] using h4

/-- Witness for C5 at concrete inputs. -/
theorem c5_witness :
    takeEqEnd true (⟨5, ([] : List Nat), 0, 3⟩ : TakeState Nat) = .error .unexpectedEndOfInput
    ∧ viewTakeElems false false true [1, 2] 3 = ([1, 2], some .unexpectedEndOfInput) := by
  have h := c5_sentinel_and_underflow (⟨5, ([] : List Nat), 0, 3⟩ : TakeState Nat) [1, 2] 3
  exact ⟨h.2.1 (by decide) rfl, h.2.2.2 (by decide)⟩

/-- Claim C6: `take_until(s, p, or_throw = true)` where no element satisfies
`p` raises `UnexpectedEndOfInput` only after yielding all elements of `s`
(in both the non-consuming and the consuming cursor); and on empty `s`,
`or_throw = true` raises immediately at the first terminal-marker comparison
while `or_throw = false` yields an empty sequence. -/
theorem c6_or_throw_no_match (p : α → Bool) (s : List α) (h : ∀ x ∈ s, p x = false) :
    tuRun true p s = (s, some .unexpectedEndOfInput)
    ∧ (consumeRun true p (consumeInit p s)).1 = s
    ∧ (consumeRun true p (consumeInit p s)).2.1 = some .unexpectedEndOfInput
    ∧ tuRun true p ([] : List α) = ([], some .unexpectedEndOfInput)
    ∧ tuRun false p ([] : List α) = ([], none) := by
  have h2 : consumeRun true p (consumeInit p s)
      = (s, some .unexpectedEndOfInput, (⟨[], false⟩ : ConsumeIter α)) := by
    rw [consumeInit_no_match p s h, consumeRun_no_match p s h]
  exact ⟨tuRun_no_match p s h, by rw [h2], by rw [h2],
         by simp [tuRun, tuSentinelEq], by simp [tuRun, tuSentinelEq]⟩

/-- Witness for C6 at a concrete input. -/
theorem c6_witness :
    tuRun true (fun x : Nat => x == 9) [1, 2] = ([1, 2], some .unexpectedEndOfInput)
    ∧ (consumeRun true (fun x : Nat => x == 9)
         (consumeInit (fun x : Nat => x == 9) [1, 2])).1 = [1, 2] := by
  have h := c6_or_throw_no_match (fun x : Nat => x == 9) [1, 2] (by decide)
  exact ⟨h.1, h.2.1⟩

/-- Claim C7: on a referenceable contiguous (resp. random-access) sized
sequence of length at least `n`, the representation the take adaptor selects
(a contiguous slice, resp. a size-tagged sub-range) is observably equal to
the general bounded-count view on the same inputs: same element sequence and
same reported size (namely `n`). -/
theorem c7_representation_equiv (s : List α) (n : Nat) (h : n ≤ s.length) :
    takeFnElems (⟨false, false, true, true, false, true, true⟩ : RangeCaps) false false s n
      = takeFnElems (⟨false, false, false, false, false, true, true⟩ : RangeCaps) false false s n
    ∧ takeFnSize (⟨false, false, true, true, false, true, true⟩ : RangeCaps) false false s n
      = takeFnSize (⟨false, false, false, false, false, true, true⟩ : RangeCaps) false false s n
    ∧ takeFnSize (⟨false, false, true, true, false, true, true⟩ : RangeCaps) false false s n
      = .ok (some n)
    ∧ takeFnElems (⟨false, false, true, false, true, true, true⟩ : RangeCaps) false false s n
      = takeFnElems (⟨false, false, false, false, false, true, true⟩ : RangeCaps) false false s n
    ∧ takeFnSize (⟨false, false, true, false, true, true, true⟩ : RangeCaps) false false s n
      = takeFnSize (⟨false, false, false, false, false, true, true⟩ : RangeCaps) false false s n := by
  have hmin : min n s.length = n := Nat.min_eq_left h
  refine ⟨?_, ?_, ?_, ?_, ?_⟩ <;>
    simp [takeFnElems_no_throw, takeFnSize, takeFnCheckTarget, viewTakeCtor, hmin]

/-- Witness for C7 at a concrete input. -/
theorem c7_witness :
    takeFnSize (⟨false, false, true, true, false, true, true⟩ : RangeCaps) false false
        ([5, 6, 7] : List Nat) 2 = .ok (some 2)
    ∧ takeFnElems (⟨false, false, true, true, false, true, true⟩ : RangeCaps) false false
        ([5, 6, 7] : List Nat) 2
      = takeFnElems (⟨false, false, false, false, false, true, true⟩ : RangeCaps) false false
        ([5, 6, 7] : List Nat) 2 := by
  have h := c7_representation_equiv ([5, 6, 7] : List Nat) 2 (by decide)
  exact ⟨h.2.2.1, h.1⟩

/-- Claim C8: comparing a fixed non-consuming `take_until` cursor against its
terminal marker any number of times yields the same result every time and
leaves the underlying position unchanged. -/
theorem c8_compare_idempotent (orThrow : Bool) (p : α → Bool) (rest : List α) (m : Nat) :
    (tuCompareN orThrow p m rest).1 = List.replicate m (tuSentinelEq orThrow p rest)
    ∧ (tuCompareN orThrow p m rest).2 = rest := by
  induction m with
  | zero => simp [tuCompareN]
  | succ k ih => simp [tuCompareN, tuSentinelEqSt, ih.1, ih.2, List.replicate_succ]

/-- Claim C9: under the exact-size configuration on a single-pass source,
after `k ≤ n` advances from `begin()` the remaining-length counter shared
with the owning view — which is what the `exactly` overload of `size()`
returns — equals the originally requested count `n` minus `k`. -/
theorem c9_exact_counter (s : List α) (n k : Nat) (hk : k ≤ n) (hn : n < SIZE_T_MOD) :
    viewTakeSizeExact (((takeStep true false)^[k]) (viewTakeInit s n) : TakeState α) = n - k := by
  induction k with
  | zero => simp [viewTakeSizeExact, viewTakeInit]
  | succ m ih =>
    have h2 : (((takeStep true false)^[m]) (viewTakeInit s n) : TakeState α).hostTarget = n - m :=
      ih (by omega)
    rw [Function.iterate_succ_apply']
    show decWrap ((((takeStep true false)^[m]) (viewTakeInit s n) : TakeState α)).hostTarget
        = n - (m + 1)
    rw [h2, decWrap_pred (n - m) (by omega)]
    omega

/-- Witness for C9 at a concrete input. -/
theorem c9_witness :
    viewTakeSizeExact (((takeStep true false)^[1]) (viewTakeInit [1, 2, 3] 2) : TakeState Nat)
      = 1 :=
  c9_exact_counter [1, 2, 3] 2 1 (by decide) (by decide)

/-- Claim C10: after construction and after every advance of the consuming
`take_until` cursor, whenever it is not gracefully ended and the underlying
sequence is not exhausted, the element under the cursor does not satisfy the
predicate; consequently the terminal-marker comparison returns true exactly
when the cursor is gracefully ended or the underlying sequence is physically
exhausted, and its final predicate-evaluation branch always returns false
under this precondition. -/
theorem c10_consume_invariant (p : α → Bool) (s : List α) (k : Nat) :
    (∀ x xs, (((consumeSucc p)^[k]) (consumeInit p s)).atEndGracefully = false →
       (((consumeSucc p)^[k]) (consumeInit p s)).rest = x :: xs → p x = false)
    ∧ (consumeEq false p (((consumeSucc p)^[k]) (consumeInit p s)) = .ok true
        ↔ ((((consumeSucc p)^[k]) (consumeInit p s)).atEndGracefully = true
            ∨ (((consumeSucc p)^[k]) (consumeInit p s)).rest = []))
    ∧ (∀ (orThrow : Bool) x xs,
        (((consumeSucc p)^[k]) (consumeInit p s)).atEndGracefully = false →
        (((consumeSucc p)^[k]) (consumeInit p s)).rest = x :: xs →
        consumeEq orThrow p (((consumeSucc p)^[k]) (consumeInit p s)) = .ok false) := by
  set it := ((consumeSucc p)^[k]) (consumeInit p s) with hit
  have hinv : ∀ x xs, it.atEndGracefully = false → it.rest = x :: xs → p x = false := by
    intro x xs hg hr
    exact consumeIter_head_false p s k x xs (hit ▸ hg) (hit ▸ hr)
  refine ⟨hinv, ?_, ?_⟩
  · cases hg : it.atEndGracefully
    · cases hr : it.rest with
      | nil => simp [consumeEq, hg, hr]
      | cons x xs => simp [consumeEq, hg, hr, hinv x xs hg hr]
    · simp [consumeEq, hg]
  · intro orThrow x xs hg hr
    simp [consumeEq, hg, hr, hinv x xs hg hr]

/-- Witness for C10 at a concrete input. -/
theorem c10_witness :
    (fun x : Nat => x == 2) 1 = false
    ∧ (consumeEq false (fun x : Nat => x == 2)
          (((consumeSucc (fun x : Nat => x == 2))^[0])
            (consumeInit (fun x : Nat => x == 2) [1, 2, 3])) = .ok true
        ↔ ((((consumeSucc (fun x : Nat => x == 2))^[0])
              (consumeInit (fun x : Nat => x == 2) [1, 2, 3])).atEndGracefully = true
           ∨ (((consumeSucc (fun x : Nat => x == 2))^[0])
                (consumeInit (fun x : Nat => x == 2) [1, 2, 3])).rest = []))
    ∧ consumeEq true (fun x : Nat => x == 2)
          (((consumeSucc (fun x : Nat => x == 2))^[0])
            (consumeInit (fun x : Nat => x == 2) [1, 2, 3])) = .ok false := by
  have h := c10_consume_invariant (fun x : Nat => x == 2) [1, 2, 3] 0
  exact ⟨h.1 1 [2, 3] rfl rfl, h.2.1, h.2.2 true 1 [2, 3] rfl rfl⟩

end SeqanViews
